import Mathlib

/-!
Verification development for the plist-diff repository.

The Go source (pldiff.go, main.go) diffs two trees of property-list files.
Decoded plist values are generic Go values (`interface `, holding
`map[string]interface `, `[]interface `, `uint64`, `int64`, `float64`,
`bool`, `string`, `time.Time`, `[]uint8`).  The comparison is performed by
`cmp.Equal` (google/go-cmp v0.5.6) with a reporter that records one
`FileDiff` per unequal leaf report, rendering the `cmp.Path` with the
repository's `simplePathString`.

We shallowly embed:
  * the decoded value model (`PValue`), with Go `float64` equality modelled
    explicitly (NaN compares unequal to itself);
  * the go-cmp traversal as instantiated at these dynamic types
    (`cmpAny` / `cmpRoot`), including path-step pushing, the
    `cmpopts.IgnoreTypes(time.Time)` option used for `IgnoreTimestamps`,
    the `time.Time.Equal` method, sorted-key map traversal and the
    validator report for one-sided (absent) values;
  * the repository's own functions: `simplePathString`, `diffPlists`,
    `differ.readFile`, `diffFSFilename`, `diffFS`, `getPlistFiles` and
    `run`/`cliRoot` from main.go.

Byte decoding (`howett.net/plist`) is external to the repository and is
treated as an opaque parameter `dec : List Nat → Except String PValue`,
exactly as the spec prescribes ("decode bytes → generic tree value, or
fail").
-/

namespace PlistDiff

/-- Go float64 values as compared by go-cmp (`vx.Float() == vy.Float()`):
NaN is unequal to everything including itself; infinities and finite
values compare structurally.  Finite values are modelled by rationals. -/
inductive FloatV where
  | nan : FloatV
  | inf (neg : Bool) : FloatV
  | num (q : ℚ) : FloatV
deriving DecidableEq

/-- Go `==` on float64 (used by go-cmp for kind Float64). -/
def floatEq : FloatV → FloatV → Bool
  | .nan, _ => false
  | _, .nan => false
  | .inf a, .inf b => a == b
  | .num p, .num q => p == q
  | _, _ => false

/-- A decoded plist value: the dynamic Go types produced by
`decodePlist` (howett.net/plist decoding into `interface `).
`dict` is `map[string]interface `, `arr` is `[]interface `,
`data` is `[]uint8` (bytes as naturals), `date` is `time.Time`
(modelled by its instant, since `time.Time.Equal` compares instants). -/
inductive PValue where
  | dict (entries : List (String × PValue))
  | arr (elems : List PValue)
  | str (s : String)
  | bool (b : Bool)
  | uint (n : Nat)
  | int (n : Int)
  | real (f : FloatV)
  | date (t : Int)
  | data (bs : List Nat)

/-- The Go dynamic type name (`reflect.Type.String()`) of a decoded value. -/
def typeName : PValue → String
  | .dict _ => "map[string]interface \x7b\x7d"
  | .arr _ => "[]interface \x7b\x7d"
  | .str _ => "string"
  | .bool _ => "bool"
  | .uint _ => "uint64"
  | .int _ => "int64"
  | .real _ => "float64"
  | .date _ => "time.Time"
  | .data _ => "[]uint8"

/-- The type name go-cmp uses for mismatched or invalid roots
(`interface `, i.e. `anyType`). -/
def anyTypeName : String := "interface \x7b\x7d"

/-- Equality of the dynamic Go types of two decoded values
(`vx.Type() == vy.Type()` on the dynamic types). -/
def tyEq : PValue → PValue → Bool
  | .dict _, .dict _ => true
  | .arr _, .arr _ => true
  | .str _, .str _ => true
  | .bool _, .bool _ => true
  | .uint _, .uint _ => true
  | .int _, .int _ => true
  | .real _, .real _ => true
  | .date _, .date _ => true
  | .data _, .data _ => true
  | _, _ => false

/-- One element of a `cmp.Path` as pushed to the reporter.  `rootStep` is
the unexported root `pathStep` (carrying its type name); the remaining
constructors are go-cmp's `MapIndex`, `SliceIndex`, `TypeAssertion`,
`Indirect`, `Transform` and `StructField`. -/
inductive PathStep where
  | rootStep (tn : String)
  | mapIndex (key : String)
  | sliceIndex (xkey ykey : Int)
  | typeAssertion (tn : String)
  | indirect
  | transform (name : String)
  | structField (name : String)
deriving DecidableEq

/-- Go `strconv`-style quoting of a string as produced by
`fmt.Sprintf("[%#v]", key)` for map keys.  Modelled for the printable
range (quote, backslash and common control characters escaped). -/
def goQuoteChar (c : Char) : String :=
  if c = '"' then "\\\""
  else if c = '\\' then "\\\\"
  else if c = '\n' then "\\n"
  else if c = '\t' then "\\t"
  else if c = '\r' then "\\r"
  else String.singleton c

/-- Go-style quoted form of a string. -/
def goQuote (s : String) : String :=
  "\"" ++ String.join (s.data.map goQuoteChar) ++ "\""

/-- A run of `n` asterisks (`strings.Repeat("*", n)`). -/
def stars (n : Nat) : String := String.join (List.replicate n "*")

/-- Whether a Go type name is too simple or complex to print, per
`pathStep.String()`: empty, or containing a brace or newline. -/
def typeNameUnprintable (s : String) : Bool :=
  s == "" || s.data.any (fun c => c == '\x7b' || c == '\x7d' || c == '\n')

/-- The `String()` method of each path step type in go-cmp, as used by
the default branch of `simplePathString`. -/
def stepString : PathStep → String
  | .rootStep tn =>
      if typeNameUnprintable tn then "root" else "\x7b" ++ tn ++ "\x7d"
  | .mapIndex key => "[" ++ goQuote key ++ "]"
  | .sliceIndex xkey ykey =>
      if xkey == ykey then "[" ++ toString xkey ++ "]"
      else if ykey == -1 then "[" ++ toString xkey ++ "->?]"
      else if xkey == -1 then "[?->" ++ toString ykey ++ "]"
      else "[" ++ toString xkey ++ "->" ++ toString ykey ++ "]"
  | .typeAssertion tn => ".(" ++ tn ++ ")"
  | .indirect => "*"
  | .transform name => name ++ "()"
  | .structField name => "." ++ name

/-- The loop body of the repository's `simplePathString`: walks the path
left to right carrying the pending `numIndirect` count, producing the
`ssPre` and `ssPost` string lists in append order. -/
def spsAux : List PathStep → Nat → List String × List String
  | [], _ => ([], [])
  | s :: rest, numIndirect =>
    match s with
    | .indirect =>
      let n := numIndirect + 1
      match rest with
      | .indirect :: _ => spsAux rest n
      | .structField _ :: _ =>
        let n := n - 1
        let r := spsAux rest 0
        if n > 0 then (("(" ++ stars n) :: r.1, ")" :: r.2) else r
      | [] =>
        let r := spsAux rest 0
        if n > 0 then (stars n :: r.1, "" :: r.2) else r
      | _ :: _ =>
        let r := spsAux rest 0
        if n > 0 then (("(" ++ stars n) :: r.1, ")" :: r.2) else r
    | .transform name =>
      let r := spsAux rest numIndirect
      ((name ++ "(") :: r.1, ")" :: r.2)
    | .typeAssertion _ => spsAux rest numIndirect
    | _ =>
      let r := spsAux rest numIndirect
      (r.1, stepString s :: r.2)

/-- The repository's `simplePathString`: renders a `cmp.Path`, skipping
type assertions, batching consecutive indirections, and joining the
reversed prefix list with the suffix list. -/
def simplePathString (pa : List PathStep) : String :=
  let r := spsAux pa 0
  String.join r.1.reverse ++ String.join r.2

/-- A value as recorded by `diffReporter.Report` via `vx.Interface()`:
either a decoded plist value, or a single byte (when the report happens
at an element of a `[]uint8` blob). -/
inductive DispV where
  | pv (v : PValue)
  | byte (b : Nat)

/-- The repository's `FileDiff`: one located discrepancy, with the path
already rendered by `simplePathString` and the two optional values. -/
structure FileDiff where
  path : String
  old : Option DispV
  new : Option DispV

/-- Build the `FileDiff` recorded by `diffReporter.Report` at a path. -/
def mkDiff (pa : List PathStep) (o n : Option DispV) : FileDiff :=
  ⟨simplePathString pa, o, n⟩

/-- Keys of an association list (the keys of a decoded Go map). -/
def keysOf (es : List (String × PValue)) : List String := es.map Prod.fst

/-- Lexicographic comparison of two strings as character lists, by
code point — the order Go's `value.SortKeys` uses on string map keys
(byte-wise comparison agrees with code-point order on valid UTF-8). -/
def strLtChars : List Char → List Char → Bool
  | [], [] => false
  | [], _ :: _ => true
  | _ :: _, [] => false
  | a :: as, b :: bs =>
    if a.toNat < b.toNat then true
    else if b.toNat < a.toNat then false
    else strLtChars as bs

/-- Go `<` on strings. -/
def strLt (s t : String) : Bool := strLtChars s.data t.data

/-- Insert a key into a sorted duplicate-free list, keeping it sorted and
duplicate-free. -/
def insertSorted (k : String) : List String → List String
  | [] => [k]
  | x :: xs =>
    if strLt k x then k :: x :: xs
    else if k == x then x :: xs
    else x :: insertSorted k xs

/-- go-cmp's `value.SortKeys(append(vx.MapKeys(), vy.MapKeys()...))`:
the sorted, deduplicated union of the two key lists. -/
def sortedUnion (ks : List String) : List String := ks.foldr insertSorted []

mutual
/-- Size of a decoded value, used as a recursion-depth bound. -/
def pvSize : PValue → Nat
  | .dict es => 1 + pvSizeEntries es
  | .arr vs => 1 + pvSizeList vs
  | .str _ => 1
  | .bool _ => 1
  | .uint _ => 1
  | .int _ => 1
  | .real _ => 1
  | .date _ => 1
  | .data _ => 1

/-- Size of a list of map entries. -/
def pvSizeEntries : List (String × PValue) → Nat
  | [] => 0
  | (_, v) :: rest => pvSize v + 1 + pvSizeEntries rest

/-- Size of a list of values. -/
def pvSizeList : List PValue → Nat
  | [] => 0
  | v :: rest => pvSize v + 1 + pvSizeList rest
end

/-- One map-entry comparison inside go-cmp's `compareMap`: the `MapIndex`
step is pushed; an absent side is an invalid `reflect.Value`, which the
`validator` option reports as one difference without recursion; when both
sides are present, mismatched dynamic types report at the `MapIndex` step,
and matching types push a `TypeAssertion` step and recurse. -/
def cmpEntry (recur : List PathStep → PValue → PValue → List FileDiff)
    (path : List PathStep) (k : String) :
    Option PValue → Option PValue → List FileDiff
  | none, none => []
  | some a, none => [mkDiff (path ++ [.mapIndex k]) (some (.pv a)) none]
  | none, some b => [mkDiff (path ++ [.mapIndex k]) none (some (.pv b))]
  | some a, some b =>
    if tyEq a b then
      recur (path ++ [.mapIndex k, .typeAssertion (typeName a)]) a b
    else [mkDiff (path ++ [.mapIndex k]) (some (.pv a)) (some (.pv b))]

/-- One index comparison inside go-cmp's `compareSlice` for
`[]interface ` elements: like `cmpEntry` but with `SliceIndex` steps;
an index beyond one side's length has `xkey` or `ykey` set to `-1`. -/
def cmpElem (recur : List PathStep → PValue → PValue → List FileDiff)
    (path : List PathStep) (i : Nat) :
    Option PValue → Option PValue → List FileDiff
  | none, none => []
  | some a, none => [mkDiff (path ++ [.sliceIndex i (-1)]) (some (.pv a)) none]
  | none, some b => [mkDiff (path ++ [.sliceIndex (-1) i]) none (some (.pv b))]
  | some a, some b =>
    if tyEq a b then
      recur (path ++ [.sliceIndex i i, .typeAssertion (typeName a)]) a b
    else [mkDiff (path ++ [.sliceIndex i i]) (some (.pv a)) (some (.pv b))]

/-- One index comparison inside `compareSlice` for `[]uint8` elements:
the element type is concrete (`uint8`), so no type assertion is pushed
and kind `Uint` compares by value. -/
def byteElem (path : List PathStep) (i : Nat) :
    Option Nat → Option Nat → List FileDiff
  | none, none => []
  | some a, none => [mkDiff (path ++ [.sliceIndex i (-1)]) (some (.byte a)) none]
  | none, some b => [mkDiff (path ++ [.sliceIndex (-1) i]) none (some (.byte b))]
  | some a, some b =>
    if a == b then []
    else [mkDiff (path ++ [.sliceIndex i i]) (some (.byte a)) (some (.byte b))]

/-- go-cmp's `compareAny` at a step whose two values have the same
dynamic type, instantiated at decoded plist values.  `ig` is whether
`cmpopts.IgnoreTypes(time.Time)` is active; it applies exactly at steps
of static type `time.Time` and is checked before the `time.Time.Equal`
method.  Maps traverse the sorted, deduplicated union of keys; slices
compare index-wise up to the longer length.  The fuel argument only
bounds the recursion depth; callers pass more fuel than any value's
depth, so the fuel-0 branch is unreachable. -/
def cmpAny (ig : Bool) : Nat → List PathStep → PValue → PValue → List FileDiff
  | 0, _, _, _ => []
  | fuel + 1, path, x, y =>
    match x, y with
    | .dict ea, .dict eb =>
      ((sortedUnion (keysOf ea ++ keysOf eb)).map fun k =>
        cmpEntry (cmpAny ig fuel) path k (ea.lookup k) (eb.lookup k)).flatten
    | .arr as, .arr bs =>
      ((List.range (max as.length bs.length)).map fun i =>
        cmpElem (cmpAny ig fuel) path i as[i]? bs[i]?).flatten
    | .data as, .data bs =>
      ((List.range (max as.length bs.length)).map fun i =>
        byteElem path i as[i]? bs[i]?).flatten
    | .str a, .str b =>
      if a == b then [] else [mkDiff path (some (.pv (.str a))) (some (.pv (.str b)))]
    | .bool a, .bool b =>
      if a == b then [] else [mkDiff path (some (.pv (.bool a))) (some (.pv (.bool b)))]
    | .uint a, .uint b =>
      if a == b then [] else [mkDiff path (some (.pv (.uint a))) (some (.pv (.uint b)))]
    | .int a, .int b =>
      if a == b then [] else [mkDiff path (some (.pv (.int a))) (some (.pv (.int b)))]
    | .real f, .real g =>
      if floatEq f g then [] else [mkDiff path (some (.pv (.real f))) (some (.pv (.real g)))]
    | .date s, .date t =>
      if ig then []
      else if s == t then []
      else [mkDiff path (some (.pv (.date s))) (some (.pv (.date t)))]
    | _, _ => []

/-- `cmp.Equal(oldList, newList, opts...)` with the reporter, on the two
decoded root values (`none` is a nil `interface `, i.e. an invalid
`reflect.Value` at the root).  Mismatched dynamic types or a one-sided
nil report a single difference at the root step, whose type is then
`interface `; equal dynamic types compare concretely at the root step. -/
def cmpRoot (ig : Bool) : Option PValue → Option PValue → List FileDiff
  | none, none => []
  | some a, none => [mkDiff [.rootStep anyTypeName] (some (.pv a)) none]
  | none, some b => [mkDiff [.rootStep anyTypeName] none (some (.pv b))]
  | some a, some b =>
    if tyEq a b then cmpAny ig (pvSize a + pvSize b + 1) [.rootStep (typeName a)] a b
    else [mkDiff [.rootStep anyTypeName] (some (.pv a)) (some (.pv b))]

/-- Space-separated join, as in Go's fmt for maps and slices. -/
def joinSpace (l : List String) : String := String.intercalate " " l

/-- Rendering of a float value under Go's fmt verbs.  The exact numeric
formatting of finite values is irrelevant to every claim. -/
def floatStr : FloatV → String
  | .nan => "NaN"
  | .inf false => "+Inf"
  | .inf true => "-Inf"
  | .num q => toString q

/-- Go `fmt.Sprintf("%+v", v)` on a decoded value, up to the textual
formatting of finite floats and timestamps (on which no claim depends):
maps render their entries sorted by key, slices space-separated. -/
def displayV : Nat → PValue → String
  | 0, _ => ""
  | fuel + 1, v =>
    match v with
    | .dict es =>
      "map[" ++ joinSpace ((sortedUnion (keysOf es)).map fun k =>
        k ++ ":" ++ (match es.lookup k with
          | some w => displayV fuel w
          | none => "")) ++ "]"
    | .arr vs => "[" ++ joinSpace (vs.map (displayV fuel)) ++ "]"
    | .str s => s
    | .bool b => if b then "true" else "false"
    | .uint n => toString n
    | .int n => toString n
    | .real f => floatStr f
    | .date t => "time.Time(" ++ toString t ++ ")"
    | .data bs => "[" ++ joinSpace (bs.map toString) ++ "]"

/-- Display form of a reported value. -/
def dispString : DispV → String
  | .pv v => displayV (pvSize v) v
  | .byte b => toString b

/-- Go `%T` of a reported value. -/
def dispTypeName : DispV → String
  | .pv v => typeName v
  | .byte _ => "uint8"

/-- The repository's `FileDiff.String()`: a `-` line when the old side is
set and a `+` line when the new side is set. -/
def fdString (d : FileDiff) : String :=
  (match d.old with
   | some v => "\t-" ++ d.path ++ ": " ++ dispString v ++ " (" ++ dispTypeName v ++ ")\n"
   | none => "") ++
  (match d.new with
   | some v => "\t+" ++ d.path ++ ": " ++ dispString v ++ " (" ++ dispTypeName v ++ ")\n"
   | none => "")

/-- Strip trailing newline characters (`strings.TrimRight(s, "\n")`). -/
def trimRightNL (s : String) : String :=
  String.mk (s.data.reverse.dropWhile (fun c => c == '\n')).reverse

/-- The repository's `diffReporter.String()`: each diff's text followed by
a newline, concatenated, with trailing newlines stripped. -/
def reporterString (ds : List FileDiff) : String :=
  trimRightNL (String.join (ds.map fun d => fdString d ++ "\n"))

/-- Error kinds surfaced by file reads (`os.ErrPermission` and any other
read failure). -/
inductive PError where
  | permission
  | other
deriving DecidableEq

/-- Outcome of reading one path in a file tree: regular file content, a
permission-denied failure, or some other read failure.  A path not
present at all models `os.ErrNotExist`. -/
inductive FileState where
  | readable (data : List Nat)
  | permDenied
  | otherErr

/-- A logical file tree: relative path to file state. -/
structure FSys where
  files : List (String × FileState)

/-- The repository's `differ` configuration. -/
structure Differ where
  IgnorePermissionError : Bool
  IgnoreTimestamps : Bool

/-- The repository's `differ.readFile`: a missing file yields empty bytes
and no error; a permission error yields empty bytes when
`IgnorePermissionError` is set and is propagated otherwise; any other
failure is propagated. -/
def readFile (d : Differ) (fs : FSys) (filename : String) : Except PError (List Nat) :=
  match fs.files.lookup filename with
  | none => .ok []
  | some (.readable data) => .ok data
  | some .permDenied =>
    if d.IgnorePermissionError then .ok [] else .error .permission
  | some .otherErr => .error .other

/-- Go `strings.HasSuffix` on strings as character lists (byte-wise
suffix agrees with character-wise suffix on valid UTF-8). -/
def strEndsWith (s suffix0 : String) : Bool :=
  s.data.drop (s.data.length - suffix0.data.length) == suffix0.data

/-- The repository's `getPlistFiles`: the regular files whose path ends
in `.plist`. -/
def plistFiles (fs : FSys) : List String :=
  (fs.files.map Prod.fst).filter (fun p => strEndsWith p ".plist")

/-- Convert a decode result to the value used for comparison: `diffPlists`
replaces a failed decode by nil (`oldList = nil`). -/
def decOpt (r : Except String PValue) : Option PValue :=
  match r with
  | .ok v => some v
  | .error _ => none

/-- The repository's `diffPlists`: decode both sides (failure degrades to
nil), compare with the reporter, and return the equality flag with the
rendered text.  Its Go signature includes an error, but every return path
passes a nil error. -/
def diffPlists (dec : List Nat → Except String PValue)
    (oldData newData : List Nat) (ig : Bool) : Except PError (Bool × String) :=
  let oldList := decOpt (dec oldData)
  let newList := decOpt (dec newData)
  let diffs := cmpRoot ig oldList newList
  if diffs.isEmpty then .ok (true, "") else .ok (false, reporterString diffs)

/-- The repository's `differ.diffFSFilename`: read side b then side a,
diff the plists with `IgnoreTimestamps` as the option, and return `none`
when equal, or the rendered diff block. -/
def diffFSFilename (d : Differ) (dec : List Nat → Except String PValue)
    (a b : FSys) (filename : String) : Except PError (Option String) :=
  match readFile d b filename with
  | .error e => .error e
  | .ok bData =>
    match readFile d a filename with
    | .error e => .error e
    | .ok aData =>
      match diffPlists dec aData bData d.IgnoreTimestamps with
      | .error e => .error e
      | .ok (eq, delta) => if eq then .ok none else .ok (some delta)

/-- The filenames `diffFS` considers: the `.plist` files of side a, then
those of side b not already covered. -/
def fsNames (a b : FSys) : List String :=
  plistFiles a ++ (plistFiles b).filter (fun f => !(plistFiles a).contains f)

/-- The per-filename loop of `diffFS`: any error aborts; a `none` result
omits the file; a rendered block is recorded under the filename. -/
def diffFSList (d : Differ) (dec : List Nat → Except String PValue)
    (a b : FSys) : List String → Except PError (List (String × String))
  | [] => .ok []
  | f :: rest =>
    match diffFSFilename d dec a b f with
    | .error e => .error e
    | .ok none => diffFSList d dec a b rest
    | .ok (some s) =>
      match diffFSList d dec a b rest with
      | .error e => .error e
      | .ok delta => .ok ((f, s) :: delta)

/-- The repository's `differ.diffFS`: process every considered filename,
and return `len(delta) == 0` with the delta. -/
def diffFS (d : Differ) (dec : List Nat → Except String PValue)
    (a b : FSys) : Except PError (Bool × List (String × String)) :=
  match diffFSList d dec a b (fsNames a b) with
  | .error e => .error e
  | .ok delta => .ok (delta.isEmpty, delta)

/-- Keys of a file diff set. -/
def deltaKeys (delta : List (String × String)) : List String := delta.map Prod.fst

/-- The command-line options of main.go (`cliRoot`); Go zero values, so
both flags default to false. -/
structure CliRoot where
  timestamps : Bool := false
  permissionsErrors : Bool := false

/-- The differ constructed by `run` in main.go. -/
def runDiffer (cli : CliRoot) : Differ :=
  { IgnoreTimestamps := !cli.timestamps,
    IgnorePermissionError := !cli.permissionsErrors }

theorem flatten_map_nil {α β : Type} {l : List α} {f : α → List β}
    (h : ∀ x ∈ l, f x = []) : (l.map f).flatten = [] := by
  induction l with
  | nil => rfl
  | cons x xs ih =>
    simp only [List.map_cons, List.flatten_cons, h x (List.mem_cons_self x xs)]
    exact ih fun y hy => h y (List.mem_cons_of_mem x hy)

theorem flatten_map_single {α β : Type} {l : List α} {k : α} {f : α → List β}
    (hnd : l.Nodup) (hk : k ∈ l) (h2 : ∀ x ∈ l, x ≠ k → f x = []) :
    (l.map f).flatten = f k := by
  induction l with
  | nil => cases hk
  | cons x xs ih =>
    rcases List.mem_cons.mp hk with h | hmem
    · have hall : ∀ y ∈ xs, f y = [] := fun y hy =>
        h2 y (List.mem_cons_of_mem x hy)
          (fun hyk => (List.nodup_cons.mp hnd).1 (h ▸ hyk ▸ hy))
      simp [flatten_map_nil hall, h]
    · have hxk : x ≠ k := fun h => (List.nodup_cons.mp hnd).1 (h ▸ hmem)
      simp only [List.map_cons, List.flatten_cons,
        h2 x (List.mem_cons_self x xs) hxk, List.nil_append]
      exact ih (List.nodup_cons.mp hnd).2 hmem
        (fun y hy hyk => h2 y (List.mem_cons_of_mem x hy) hyk)

theorem lookup_mem {β : Type} {es : List (String × β)} {k : String} {v : β}
    (h : es.lookup k = some v) : (k, v) ∈ es := by
  induction es with
  | nil => cases h
  | cons p rest ih =>
    obtain ⟨k1, v1⟩ := p
    by_cases hk : k = k1
    · subst hk
      simp [List.lookup] at h
      simp [h]
    · have hb : (k == k1) = false := beq_false_of_ne hk
      simp [List.lookup, hb] at h
      exact List.mem_cons_of_mem _ (ih h)

theorem mem_keysOf_of_lookup {es : List (String × PValue)} {k : String} {v : PValue}
    (h : es.lookup k = some v) : k ∈ keysOf es :=
  List.mem_map_of_mem Prod.fst (lookup_mem h)

theorem strLtChars_cons_iff {a b : Char} {as bs : List Char} :
    strLtChars (a :: as) (b :: bs) = true ↔
      a.toNat < b.toNat ∨ (a.toNat = b.toNat ∧ strLtChars as bs = true) := by
  simp only [strLtChars]
  split
  · simp [*]
  · split
    · simp only [Bool.false_eq_true, false_iff]
      push_neg
      constructor
      · omega
      · intro h
        omega
    · have : a.toNat = b.toNat := by omega
      simp [this]

theorem strLtChars_irrefl : ∀ l : List Char, strLtChars l l = false
  | [] => rfl
  | a :: as => by
    simp [strLtChars, Nat.lt_irrefl, strLtChars_irrefl as]

theorem strLtChars_trans : ∀ (l1 l2 l3 : List Char),
    strLtChars l1 l2 = true → strLtChars l2 l3 = true → strLtChars l1 l3 = true
  | [], [], _, h1, _ => by cases h1
  | [], _ :: _, [], _, h2 => by cases h2
  | [], _ :: _, _ :: _, _, _ => rfl
  | _ :: _, [], _, h1, _ => by cases h1
  | _ :: _, _ :: _, [], _, h2 => by cases h2
  | a :: as, b :: bs, c :: cs, h1, h2 => by
    rw [strLtChars_cons_iff] at h1 h2 ⊢
    rcases h1 with h1 | ⟨h1e, h1r⟩
    · rcases h2 with h2 | ⟨h2e, _⟩
      · exact Or.inl (h1.trans h2)
      · exact Or.inl (h2e ▸ h1)
    · rcases h2 with h2 | ⟨h2e, h2r⟩
      · exact Or.inl (h1e ▸ h2)
      · exact Or.inr ⟨h1e.trans h2e, strLtChars_trans as bs cs h1r h2r⟩

theorem strLtChars_eq_of_not_lt : ∀ (l1 l2 : List Char),
    strLtChars l1 l2 = false → strLtChars l2 l1 = false → l1 = l2
  | [], [], _, _ => rfl
  | [], _ :: _, h1, _ => by cases h1
  | _ :: _, [], _, h2 => by cases h2
  | a :: as, b :: bs, h1, h2 => by
    have h1 : ¬ (a.toNat < b.toNat ∨ (a.toNat = b.toNat ∧ strLtChars as bs = true)) := by
      rw [← strLtChars_cons_iff]
      simp [h1]
    have h2 : ¬ (b.toNat < a.toNat ∨ (b.toNat = a.toNat ∧ strLtChars bs as = true)) := by
      rw [← strLtChars_cons_iff]
      simp [h2]
    push_neg at h1 h2
    have he : a.toNat = b.toNat := by omega
    have hab : a = b := Char.eq_of_val_eq (UInt32.ext he)
    have hr : as = bs :=
      strLtChars_eq_of_not_lt as bs
        (Bool.eq_false_iff.mpr fun h => (h1.2 he) h)
        (Bool.eq_false_iff.mpr fun h => (h2.2 he.symm) h)
    rw [hab, hr]

theorem strLt_trans {s t u : String} (h1 : strLt s t = true) (h2 : strLt t u = true) :
    strLt s u = true :=
  strLtChars_trans s.data t.data u.data h1 h2

theorem strLt_irrefl (s : String) : strLt s s = false := strLtChars_irrefl s.data

theorem strLt_ne {s t : String} (h : strLt s t = true) : s ≠ t := by
  intro he
  rw [he, strLt_irrefl] at h
  cases h

theorem eq_of_strLt_false {s t : String} (h1 : strLt s t = false)
    (h2 : strLt t s = false) : s = t := by
  have h := strLtChars_eq_of_not_lt s.data t.data h1 h2
  cases s
  cases t
  exact congrArg String.mk h

/-- Strict sortedness of a key list under Go string comparison. -/
def KeySorted (l : List String) : Prop := l.Pairwise (fun a b => strLt a b = true)

theorem mem_insertSorted {a k : String} :
    ∀ {l : List String}, a ∈ insertSorted k l ↔ a = k ∨ a ∈ l := by
  intro l
  induction l with
  | nil => simp [insertSorted]
  | cons x xs ih =>
    simp only [insertSorted]
    split
    · simp [List.mem_cons]
    · split
      · rename_i hlt hbeq
        have hkx : k = x := eq_of_beq hbeq
        subst hkx
        simp only [List.mem_cons]
        constructor
        · intro h
          exact Or.inr h
        · rintro (rfl | h)
          · exact Or.inl rfl
          · exact h
      · simp only [List.mem_cons, ih]
        tauto

theorem keySorted_insertSorted {k : String} :
    ∀ {l : List String}, KeySorted l → KeySorted (insertSorted k l) := by
  intro l
  induction l with
  | nil => intro _; simp [insertSorted, KeySorted]
  | cons x xs ih =>
    intro hs
    have hs' := (List.pairwise_cons.mp hs)
    simp only [insertSorted]
    split
    · rename_i hlt
      refine List.pairwise_cons.mpr ⟨?_, hs⟩
      intro y hy
      rcases List.mem_cons.mp hy with rfl | hy2
      · exact hlt
      · exact strLt_trans hlt (hs'.1 y hy2)
    · split
      · exact hs
      · rename_i hlt hbeq
        have hne : k ≠ x := by
          intro h
          rw [h] at hbeq
          simp at hbeq
        have hxk : strLt x k = true := by
          cases hxk : strLt x k
          · exact absurd (eq_of_strLt_false hxk (by simpa using hlt)).symm hne
          · rfl
        refine List.pairwise_cons.mpr ⟨?_, ih hs'.2⟩
        intro y hy
        rcases mem_insertSorted.mp hy with rfl | hy2
        · exact hxk
        · exact hs'.1 y hy2

theorem keySorted_sortedUnion (ks : List String) : KeySorted (sortedUnion ks) := by
  induction ks with
  | nil => simp [sortedUnion, KeySorted]
  | cons k ks ih => exact keySorted_insertSorted ih

theorem mem_sortedUnion {a : String} :
    ∀ {ks : List String}, a ∈ sortedUnion ks ↔ a ∈ ks := by
  intro ks
  induction ks with
  | nil => simp [sortedUnion]
  | cons k ks ih =>
    show a ∈ insertSorted k (sortedUnion ks) ↔ _
    rw [mem_insertSorted, ih]
    simp [List.mem_cons]

theorem nodup_sortedUnion (ks : List String) : (sortedUnion ks).Nodup :=
  (keySorted_sortedUnion ks).imp fun h => strLt_ne h

theorem tyEq_refl (v : PValue) : tyEq v v = true := by cases v <;> rfl

/-- Decoded values containing no NaN float anywhere.  Go compares floats
with `==`, under which NaN is unequal to itself, so self-comparison is
only difference-free away from NaN. -/
inductive NanFree : PValue → Prop
  | dict (es : List (String × PValue)) (h : ∀ p ∈ es, NanFree p.2) : NanFree (.dict es)
  | arr (vs : List PValue) (h : ∀ v ∈ vs, NanFree v) : NanFree (.arr vs)
  | str (s : String) : NanFree (.str s)
  | bool (b : Bool) : NanFree (.bool b)
  | uint (n : Nat) : NanFree (.uint n)
  | int (n : Int) : NanFree (.int n)
  | inf (b : Bool) : NanFree (.real (.inf b))
  | num (q : ℚ) : NanFree (.real (.num q))
  | date (t : Int) : NanFree (.date t)
  | data (bs : List Nat) : NanFree (.data bs)

theorem cmpAny_self {v : PValue} (hv : NanFree v) (ig : Bool) :
    ∀ fuel path, cmpAny ig fuel path v v = [] := by
  induction hv with
  | dict es h ih =>
    intro fuel path
    cases fuel with
    | zero => rfl
    | succ f =>
      simp only [cmpAny]
      apply flatten_map_nil
      intro k _
      cases hl : es.lookup k with
      | none => simp [cmpEntry, hl]
      | some a =>
        have hm := lookup_mem hl
        simp only [hl, cmpEntry, tyEq_refl, if_true]
        exact ih (k, a) hm f _
  | arr vs h ih =>
    intro fuel path
    cases fuel with
    | zero => rfl
    | succ f =>
      simp only [cmpAny]
      apply flatten_map_nil
      intro i _
      cases hl : vs[i]? with
      | none => simp [cmpElem, hl]
      | some a =>
        simp only [hl, cmpElem, tyEq_refl, if_true]
        exact ih a (List.getElem?_mem hl) f _
  | data bs =>
    intro fuel path
    cases fuel with
    | zero => rfl
    | succ f =>
      simp only [cmpAny]
      apply flatten_map_nil
      intro i _
      cases hl : bs[i]? with
      | none => simp [byteElem, hl]
      | some b => simp [byteElem, hl]
  | str s =>
    intro fuel path
    cases fuel with
    | zero => rfl
    | succ f => simp [cmpAny]
  | bool b =>
    intro fuel path
    cases fuel with
    | zero => rfl
    | succ f => simp [cmpAny]
  | uint n =>
    intro fuel path
    cases fuel with
    | zero => rfl
    | succ f => simp [cmpAny]
  | int n =>
    intro fuel path
    cases fuel with
    | zero => rfl
    | succ f => simp [cmpAny]
  | inf b =>
    intro fuel path
    cases fuel with
    | zero => rfl
    | succ f => simp [cmpAny, floatEq]
  | num q =>
    intro fuel path
    cases fuel with
    | zero => rfl
    | succ f => simp [cmpAny, floatEq]
  | date t =>
    intro fuel path
    cases fuel with
    | zero => rfl
    | succ f => cases ig <;> simp [cmpAny]

theorem cmpRoot_self {v : PValue} (hv : NanFree v) (ig : Bool) :
    cmpRoot ig (some v) (some v) = [] := by
  simp only [cmpRoot, tyEq_refl, if_true]
  exact cmpAny_self hv ig _ _

/-- Two decoded values that differ only in timestamp-kind scalars: equal
shape and equal (in Go semantics) non-timestamp leaves, with arbitrary
timestamps on the two sides. -/
inductive TsEq : PValue → PValue → Prop
  | dict (ea eb : List (String × PValue))
      (hsome : ∀ k : String, (ea.lookup k).isSome = (eb.lookup k).isSome)
      (hrec : ∀ (k : String) (v w : PValue),
        ea.lookup k = some v → eb.lookup k = some w → TsEq v w) :
      TsEq (.dict ea) (.dict eb)
  | arr (as bs : List PValue) (hlen : as.length = bs.length)
      (hrec : ∀ (i : Nat) (a b : PValue),
        as[i]? = some a → bs[i]? = some b → TsEq a b) :
      TsEq (.arr as) (.arr bs)
  | str (s : String) : TsEq (.str s) (.str s)
  | bool (b : Bool) : TsEq (.bool b) (.bool b)
  | uint (n : Nat) : TsEq (.uint n) (.uint n)
  | int (n : Int) : TsEq (.int n) (.int n)
  | real (f g : FloatV) (h : floatEq f g = true) : TsEq (.real f) (.real g)
  | date (s t : Int) : TsEq (.date s) (.date t)
  | data (bs : List Nat) : TsEq (.data bs) (.data bs)

theorem TsEq.tyEq_true {v w : PValue} (h : TsEq v w) : tyEq v w = true := by
  cases h <;> rfl

theorem cmpAny_tsEq {v w : PValue} (h : TsEq v w) :
    ∀ fuel path, cmpAny true fuel path v w = [] := by
  induction h with
  | dict ea eb hsome hrec ih =>
    intro fuel path
    cases fuel with
    | zero => rfl
    | succ f =>
      simp only [cmpAny]
      apply flatten_map_nil
      intro k _
      cases hla : ea.lookup k with
      | none =>
        cases hlb : eb.lookup k with
        | none => simp [cmpEntry, hla, hlb]
        | some b =>
          exfalso
          have hx := hsome k
          rw [hla, hlb] at hx
          simp at hx
      | some a =>
        cases hlb : eb.lookup k with
        | none =>
          exfalso
          have hx := hsome k
          rw [hla, hlb] at hx
          simp at hx
        | some b =>
          have ht := hrec k a b hla hlb
          simp only [hla, hlb, cmpEntry, ht.tyEq_true, if_true]
          exact ih k a b hla hlb f _
  | arr as bs hlen hrec ih =>
    intro fuel path
    cases fuel with
    | zero => rfl
    | succ f =>
      simp only [cmpAny]
      apply flatten_map_nil
      intro i _
      cases hva : as[i]? with
      | none =>
        have hia : as.length ≤ i := by
          by_contra hlt
          push_neg at hlt
          rw [List.getElem?_eq_getElem hlt] at hva
          cases hva
        have hvb : bs[i]? = none := by
          apply List.getElem?_eq_none
          omega
        simp [cmpElem, hva, hvb]
      | some a =>
        have hia : i < as.length := by
          by_contra hge
          push_neg at hge
          rw [List.getElem?_eq_none hge] at hva
          cases hva
        have hib : i < bs.length := by omega
        obtain ⟨b, hvb⟩ : ∃ b, bs[i]? = some b := ⟨bs[i], List.getElem?_eq_getElem hib⟩
        have ht := hrec i a b hva hvb
        simp only [hva, hvb, cmpElem, ht.tyEq_true, if_true]
        exact ih i a b hva hvb f _
  | str s =>
    intro fuel path
    cases fuel with
    | zero => rfl
    | succ f => simp [cmpAny]
  | bool b =>
    intro fuel path
    cases fuel with
    | zero => rfl
    | succ f => simp [cmpAny]
  | uint n =>
    intro fuel path
    cases fuel with
    | zero => rfl
    | succ f => simp [cmpAny]
  | int n =>
    intro fuel path
    cases fuel with
    | zero => rfl
    | succ f => simp [cmpAny]
  | real f g h =>
    intro fuel path
    cases fuel with
    | zero => rfl
    | succ fl => simp [cmpAny, h]
  | date s t =>
    intro fuel path
    cases fuel with
    | zero => rfl
    | succ f => simp [cmpAny]
  | data bs =>
    intro fuel path
    cases fuel with
    | zero => rfl
    | succ f =>
      simp only [cmpAny]
      apply flatten_map_nil
      intro i _
      cases hl : bs[i]? with
      | none => simp [byteElem, hl]
      | some b => simp [byteElem, hl]

theorem cmpRoot_tsEq {v w : PValue} (h : TsEq v w) :
    cmpRoot true (some v) (some w) = [] := by
  simp only [cmpRoot, h.tyEq_true, if_true]
  exact cmpAny_tsEq h _ _

theorem spsAux_ind_ind (rest : List PathStep) (m : Nat) :
    spsAux (.indirect :: .indirect :: rest) m = spsAux (.indirect :: rest) (m + 1) := rfl

theorem spsAux_ind_last (m : Nat) : spsAux [.indirect] m = ([stars (m + 1)], [""]) := by
  simp only [spsAux]
  rw [if_pos (by omega : m + 1 > 0)]

theorem spsAux_ind_structField (f : String) (rest : List PathStep) (m : Nat) :
    spsAux (.indirect :: .structField f :: rest) m =
      (if m > 0 then
        (("(" ++ stars m) :: (spsAux (.structField f :: rest) 0).1,
         ")" :: (spsAux (.structField f :: rest) 0).2)
       else spsAux (.structField f :: rest) 0) := rfl

theorem spsAux_ind_cons (t : PathStep) (rest : List PathStep) (m : Nat)
    (h1 : t ≠ .indirect) (h2 : ∀ f, t ≠ .structField f) :
    spsAux (.indirect :: t :: rest) m =
      (("(" ++ stars (m + 1)) :: (spsAux (t :: rest) 0).1,
       ")" :: (spsAux (t :: rest) 0).2) := by
  cases t with
  | indirect => exact absurd rfl h1
  | structField f => exact absurd rfl (h2 f)
  | rootStep tn =>
    simp only [spsAux]
    rw [if_pos (by omega : m + 1 > 0)]
  | mapIndex k =>
    simp only [spsAux]
    rw [if_pos (by omega : m + 1 > 0)]
  | sliceIndex x y =>
    simp only [spsAux]
    rw [if_pos (by omega : m + 1 > 0)]
  | typeAssertion tn =>
    simp only [spsAux]
    rw [if_pos (by omega : m + 1 > 0)]
  | transform nm =>
    simp only [spsAux]
    rw [if_pos (by omega : m + 1 > 0)]

theorem spsAux_replicate_mapIndex (k : String) :
    ∀ (n m : Nat),
      spsAux (List.replicate (n + 1) PathStep.indirect ++ [PathStep.mapIndex k]) m
        = ([("(" ++ stars (m + n + 1))], [")", stepString (PathStep.mapIndex k)])
  | 0, m => by
    simp only [List.replicate_succ, List.replicate_zero, List.nil_append, List.cons_append]
    rw [spsAux_ind_cons (.mapIndex k) [] m nofun (fun _ => nofun)]
    rfl
  | n + 1, m => by
    have h : List.replicate (n + 1 + 1) PathStep.indirect ++ [PathStep.mapIndex k]
        = PathStep.indirect :: PathStep.indirect ::
          (List.replicate n PathStep.indirect ++ [PathStep.mapIndex k]) := by
      simp [List.replicate_succ]
    rw [h, spsAux_ind_ind]
    have h2 : PathStep.indirect :: (List.replicate n PathStep.indirect ++ [PathStep.mapIndex k])
        = List.replicate (n + 1) PathStep.indirect ++ [PathStep.mapIndex k] := by
      simp [List.replicate_succ]
    rw [h2, spsAux_replicate_mapIndex k n (m + 1)]
    have h3 : m + 1 + n + 1 = m + (n + 1) + 1 := by omega
    rw [h3]

theorem spsAux_replicate_trailing :
    ∀ (n m : Nat), spsAux (List.replicate (n + 1) PathStep.indirect) m = ([stars (m + n + 1)], [""])
  | 0, m => by
    simp only [List.replicate_succ, List.replicate_zero]
    exact spsAux_ind_last m
  | n + 1, m => by
    have h : List.replicate (n + 1 + 1) PathStep.indirect
        = PathStep.indirect :: PathStep.indirect :: List.replicate n PathStep.indirect := by
      simp [List.replicate_succ]
    rw [h, spsAux_ind_ind]
    have h2 : PathStep.indirect :: List.replicate n PathStep.indirect
        = List.replicate (n + 1) PathStep.indirect := by
      simp [List.replicate_succ]
    rw [h2, spsAux_replicate_trailing n (m + 1)]
    have h3 : m + 1 + n + 1 = m + (n + 1) + 1 := by omega
    rw [h3]

theorem sps_coalesce_mapIndex (n : Nat) (k : String) :
    simplePathString (List.replicate (n + 1) PathStep.indirect ++ [PathStep.mapIndex k])
      = "(" ++ stars (n + 1) ++ ")" ++ stepString (PathStep.mapIndex k) := by
  unfold simplePathString
  rw [spsAux_replicate_mapIndex k n 0]
  show String.join [("(" ++ stars (0 + n + 1))].reverse
      ++ String.join [")", stepString (PathStep.mapIndex k)] = _
  rw [List.reverse_singleton]
  rw [show (0 : Nat) + n + 1 = n + 1 from by omega]
  show ("(" ++ stars (n + 1)) ++ (")" ++ stepString (PathStep.mapIndex k)) = _
  rw [String.append_assoc ("(" ++ stars (n + 1)) ")" (stepString (PathStep.mapIndex k))]

theorem sps_trailing (n : Nat) :
    simplePathString (List.replicate (n + 1) PathStep.indirect) = stars (n + 1) := by
  unfold simplePathString
  rw [spsAux_replicate_trailing n 0]
  show String.join [stars (0 + n + 1)].reverse ++ String.join [""] = _
  rw [List.reverse_singleton]
  rw [show (0 : Nat) + n + 1 = n + 1 from by omega]
  show stars (n + 1) ++ "" = _
  simp

theorem sps_ind_structField (f : String) :
    simplePathString [PathStep.indirect, PathStep.structField f] = "." ++ f := rfl

theorem spsAux_ta_invariant (tn : String) (post : List PathStep) :
    ∀ (pre : List PathStep) (m : Nat), pre.getLast? ≠ some PathStep.indirect →
      spsAux (pre ++ PathStep.typeAssertion tn :: post) m = spsAux (pre ++ post) m := by
  intro pre
  induction pre with
  | nil => intro m _; rfl
  | cons s pre ih =>
    intro m hlast
    cases pre with
    | nil =>
      have hs : s ≠ PathStep.indirect := by
        intro h
        rw [h] at hlast
        exact hlast rfl
      cases s with
      | indirect => exact absurd rfl hs
      | rootStep tn2 => rfl
      | mapIndex k => rfl
      | sliceIndex x y => rfl
      | typeAssertion tn2 => rfl
      | transform nm => rfl
      | structField f => rfl
    | cons t pre2 =>
      have hlast2 : (t :: pre2).getLast? ≠ some PathStep.indirect := by
        rw [List.getLast?_cons_cons] at hlast
        exact hlast
      cases s with
      | indirect =>
        cases t with
        | indirect =>
          simp only [List.cons_append]
          rw [spsAux_ind_ind, spsAux_ind_ind]
          have h0 := ih (m + 1) hlast2
          simp only [List.cons_append] at h0
          exact h0
        | structField f =>
          simp only [List.cons_append]
          rw [spsAux_ind_structField, spsAux_ind_structField]
          have h0 := ih 0 hlast2
          simp only [List.cons_append] at h0
          rw [h0]
        | rootStep tn2 =>
          simp only [List.cons_append]
          rw [spsAux_ind_cons (.rootStep tn2) _ _ nofun (fun _ => nofun),
            spsAux_ind_cons (.rootStep tn2) _ _ nofun (fun _ => nofun)]
          have h0 := ih 0 hlast2
          simp only [List.cons_append] at h0
          rw [h0]
        | mapIndex k =>
          simp only [List.cons_append]
          rw [spsAux_ind_cons (.mapIndex k) _ _ nofun (fun _ => nofun),
            spsAux_ind_cons (.mapIndex k) _ _ nofun (fun _ => nofun)]
          have h0 := ih 0 hlast2
          simp only [List.cons_append] at h0
          rw [h0]
        | sliceIndex x y =>
          simp only [List.cons_append]
          rw [spsAux_ind_cons (.sliceIndex x y) _ _ nofun (fun _ => nofun),
            spsAux_ind_cons (.sliceIndex x y) _ _ nofun (fun _ => nofun)]
          have h0 := ih 0 hlast2
          simp only [List.cons_append] at h0
          rw [h0]
        | typeAssertion tn2 =>
          simp only [List.cons_append]
          rw [spsAux_ind_cons (.typeAssertion tn2) _ _ nofun (fun _ => nofun),
            spsAux_ind_cons (.typeAssertion tn2) _ _ nofun (fun _ => nofun)]
          have h0 := ih 0 hlast2
          simp only [List.cons_append] at h0
          rw [h0]
        | transform nm =>
          simp only [List.cons_append]
          rw [spsAux_ind_cons (.transform nm) _ _ nofun (fun _ => nofun),
            spsAux_ind_cons (.transform nm) _ _ nofun (fun _ => nofun)]
          have h0 := ih 0 hlast2
          simp only [List.cons_append] at h0
          rw [h0]
      | rootStep tn2 =>
        have h0 := ih m hlast2
        simp only [spsAux, List.cons_append] at h0 ⊢
        rw [h0]
      | mapIndex k =>
        have h0 := ih m hlast2
        simp only [spsAux, List.cons_append] at h0 ⊢
        rw [h0]
      | sliceIndex x y =>
        have h0 := ih m hlast2
        simp only [spsAux, List.cons_append] at h0 ⊢
        rw [h0]
      | typeAssertion tn2 =>
        have h0 := ih m hlast2
        simp only [spsAux, List.cons_append] at h0 ⊢
        rw [h0]
      | transform nm =>
        have h0 := ih m hlast2
        simp only [spsAux, List.cons_append] at h0 ⊢
        rw [h0]
      | structField f =>
        have h0 := ih m hlast2
        simp only [spsAux, List.cons_append] at h0 ⊢
        rw [h0]

theorem sps_ta_invariant (tn : String) (pre post : List PathStep)
    (h : pre.getLast? ≠ some PathStep.indirect) :
    simplePathString (pre ++ PathStep.typeAssertion tn :: post)
      = simplePathString (pre ++ post) := by
  unfold simplePathString
  rw [spsAux_ta_invariant tn post pre 0 h]

/-- The per-key comparison performed inside the dictionary branch when two
decoded maps are compared at the root (with the fuel `cmpRoot` passes). -/
def dictEntryDiffs (ig : Bool) (ea eb : List (String × PValue)) (k : String) : List FileDiff :=
  cmpEntry (cmpAny ig (pvSize (PValue.dict ea) + pvSize (PValue.dict eb)))
    [PathStep.rootStep (typeName (PValue.dict ea))] k (ea.lookup k) (eb.lookup k)

theorem cmpRoot_dict (ig : Bool) (ea eb : List (String × PValue)) :
    cmpRoot ig (some (.dict ea)) (some (.dict eb))
      = ((sortedUnion (keysOf ea ++ keysOf eb)).map (dictEntryDiffs ig ea eb)).flatten := rfl

theorem join_pair (s t : String) : String.join [s, t] = s ++ t := rfl

theorem sps_root_mapIndex (tn k : String) (h : typeNameUnprintable tn = true) :
    simplePathString [PathStep.rootStep tn, PathStep.mapIndex k]
      = "root[" ++ goQuote k ++ "]" := by
  show String.join ([] : List String).reverse
      ++ String.join [stepString (PathStep.rootStep tn), stepString (PathStep.mapIndex k)] = _
  rw [List.reverse_nil, join_pair]
  show "" ++ (stepString (PathStep.rootStep tn) ++ stepString (PathStep.mapIndex k)) = _
  simp only [stepString, h, if_true]
  show "root" ++ (("[" ++ goQuote k) ++ "]") = _
  rw [← String.append_assoc "root" ("[" ++ goQuote k) "]",
    ← String.append_assoc "root" "[" (goQuote k)]
  rfl

theorem mapTypeName_unprintable (es : List (String × PValue)) :
    typeNameUnprintable (typeName (PValue.dict es)) = true := rfl

/-- The equality flag and rendered text produced by comparing two decode
results with the reporter. -/
def cmpResult (ig : Bool) (o n : Option PValue) : Bool × String :=
  let diffs := cmpRoot ig o n
  if diffs.isEmpty then (true, "") else (false, reporterString diffs)

theorem diffPlists_eq_ok (dec : List Nat → Except String PValue)
    (aD bD : List Nat) (ig : Bool) :
    diffPlists dec aD bD ig = .ok (cmpResult ig (decOpt (dec aD)) (decOpt (dec bD))) := by
  unfold diffPlists cmpResult
  by_cases h : (cmpRoot ig (decOpt (dec aD)) (decOpt (dec bD))).isEmpty <;> simp [h]

theorem diffFSFilename_eq (d : Differ) (dec : List Nat → Except String PValue)
    (a b : FSys) (f : String) (aD bD : List Nat)
    (ha : readFile d a f = .ok aD) (hb : readFile d b f = .ok bD) :
    diffFSFilename d dec a b f =
      .ok (if (cmpRoot d.IgnoreTimestamps (decOpt (dec aD)) (decOpt (dec bD))).isEmpty
        then none
        else some (reporterString
          (cmpRoot d.IgnoreTimestamps (decOpt (dec aD)) (decOpt (dec bD))))) := by
  unfold diffFSFilename
  rw [hb, ha]
  dsimp only
  rw [diffPlists_eq_ok]
  unfold cmpResult
  by_cases h : (cmpRoot d.IgnoreTimestamps (decOpt (dec aD)) (decOpt (dec bD))).isEmpty <;>
    simp [h]

theorem diffFSFilename_ok_some_iff (d : Differ) (dec : List Nat → Except String PValue)
    (a b : FSys) (f : String) :
    (∃ s, diffFSFilename d dec a b f = .ok (some s)) ↔
      ∃ aD bD, readFile d a f = .ok aD ∧ readFile d b f = .ok bD ∧
        cmpRoot d.IgnoreTimestamps (decOpt (dec aD)) (decOpt (dec bD)) ≠ [] := by
  constructor
  · rintro ⟨s, hs⟩
    cases hb : readFile d b f with
    | error e =>
      unfold diffFSFilename at hs
      rw [hb] at hs
      cases hs
    | ok bD =>
      cases ha : readFile d a f with
      | error e =>
        unfold diffFSFilename at hs
        rw [hb, ha] at hs
        cases hs
      | ok aD =>
        refine ⟨aD, bD, rfl, rfl, ?_⟩
        rw [diffFSFilename_eq d dec a b f aD bD ha hb] at hs
        by_cases h : (cmpRoot d.IgnoreTimestamps (decOpt (dec aD)) (decOpt (dec bD))).isEmpty
        · rw [if_pos h] at hs
          cases hs
        · intro hnil
          exact h (by rw [hnil]; rfl)
  · rintro ⟨aD, bD, ha, hb, hne⟩
    rw [diffFSFilename_eq d dec a b f aD bD ha hb]
    have h : (cmpRoot d.IgnoreTimestamps (decOpt (dec aD)) (decOpt (dec bD))).isEmpty = false := by
      cases hh : (cmpRoot d.IgnoreTimestamps (decOpt (dec aD)) (decOpt (dec bD))).isEmpty
      · rfl
      · exact absurd (List.isEmpty_iff.mp hh) hne
    rw [h]
    exact ⟨_, rfl⟩

theorem diffFSList_mem_keys (d : Differ) (dec : List Nat → Except String PValue)
    (a b : FSys) :
    ∀ (names : List String) (delta : List (String × String)),
      diffFSList d dec a b names = .ok delta →
      ∀ f, f ∈ deltaKeys delta ↔
        f ∈ names ∧ ∃ s, diffFSFilename d dec a b f = .ok (some s) := by
  intro names
  induction names with
  | nil =>
    intro delta h f
    cases h
    simp [deltaKeys]
  | cons g rest ih =>
    intro delta h f
    unfold diffFSList at h
    cases hg : diffFSFilename d dec a b g with
    | error e => rw [hg] at h; cases h
    | ok r =>
      rw [hg] at h
      cases r with
      | none =>
        have hiff := ih delta h f
        rw [hiff]
        constructor
        · rintro ⟨hf, s, hs⟩
          exact ⟨List.mem_cons_of_mem g hf, s, hs⟩
        · rintro ⟨hf, s, hs⟩
          rcases List.mem_cons.mp hf with rfl | hf2
          · rw [hg] at hs
            cases hs
          · exact ⟨hf2, s, hs⟩
      | some s0 =>
        cases hrest : diffFSList d dec a b rest with
        | error e => rw [hrest] at h; cases h
        | ok delta2 =>
          rw [hrest] at h
          injection h with h2
          subst h2
          have hiff := ih delta2 hrest f
          have hkeys : deltaKeys ((g, s0) :: delta2) = g :: deltaKeys delta2 := rfl
          rw [hkeys]
          constructor
          · intro hmem
            rcases List.mem_cons.mp hmem with heq | hmem2
            · subst heq
              exact ⟨List.mem_cons_self _ _, s0, hg⟩
            · obtain ⟨hf2, s, hs⟩ := hiff.mp hmem2
              exact ⟨List.mem_cons_of_mem g hf2, s, hs⟩
          · rintro ⟨hf, s, hs⟩
            rcases List.mem_cons.mp hf with heq | hf2
            · subst heq
              exact List.mem_cons_self _ _
            · exact List.mem_cons_of_mem g (hiff.mpr ⟨hf2, s, hs⟩)

theorem diffFSList_error (d : Differ) (dec : List Nat → Except String PValue)
    (a b : FSys) :
    ∀ (names : List String) (f : String), f ∈ names →
      (∃ e, diffFSFilename d dec a b f = .error e) →
      ∃ e, diffFSList d dec a b names = .error e := by
  intro names
  induction names with
  | nil =>
    intro f hf
    cases hf
  | cons g rest ih =>
    intro f hf hex
    obtain ⟨e, he⟩ := hex
    unfold diffFSList
    rcases List.mem_cons.mp hf with rfl | hf2
    · rw [he]
      exact ⟨e, rfl⟩
    · cases hg : diffFSFilename d dec a b g with
      | error e2 => exact ⟨e2, rfl⟩
      | ok r =>
        obtain ⟨e3, he3⟩ := ih f hf2 ⟨e, he⟩
        rw [he3]
        cases r with
        | none => exact ⟨e3, rfl⟩
        | some s => exact ⟨e3, rfl⟩

theorem diffFSFilename_error_of_readFile_error (d : Differ)
    (dec : List Nat → Except String PValue) (a b : FSys) (f : String)
    (h : ∃ e, readFile d a f = .error e) :
    ∃ e, diffFSFilename d dec a b f = .error e := by
  obtain ⟨e, he⟩ := h
  unfold diffFSFilename
  cases hb : readFile d b f with
  | error e2 => exact ⟨e2, rfl⟩
  | ok bD =>
    rw [he]
    exact ⟨e, rfl⟩

/-- Scalar kinds of the value model (integers, floats, booleans, strings,
timestamps and raw byte blobs; maps and sequences are not scalars). -/
def isScalar : PValue → Bool
  | .dict _ => false
  | .arr _ => false
  | _ => true

/-- A toy decoder for concrete instantiations: `[1]` and `[2]` decode to
the unsigned integers 1 and 2; everything else fails to parse. -/
def decTest : List Nat → Except String PValue
  | [1] => .ok (.uint 1)
  | [2] => .ok (.uint 2)
  | _ => .error "invalid plist"

/-- Tree a of the end-to-end fixture. -/
def fsA : FSys := ⟨[("x.plist", .readable [1])]⟩

/-- Tree b of the end-to-end fixture. -/
def fsB : FSys := ⟨[("x.plist", .readable [2])]⟩

/-- An empty tree. -/
def fsEmpty : FSys := ⟨[]⟩

/-- The differ with both exclusions on (the command-line default). -/
def dDefault : Differ := ⟨true, true⟩

/-- The differ with permission errors fatal. -/
def dStrict : Differ := ⟨false, true⟩

/-- A tree whose only file is unreadable for permission reasons. -/
def fsPerm : FSys := ⟨[("p.plist", .permDenied)]⟩

/-- The diff set produced by comparing the two fixture trees. -/
def deltaTest : List (String × String) :=
  [("x.plist", reporterString (cmpRoot true (some (.uint 1)) (some (.uint 2))))]

/-- A decoder producing a NaN real for every input. -/
def decNan : List Nat → Except String PValue := fun _ => .ok (.real .nan)

/-- A map holding one timestamp. -/
def valTs1 : PValue := .dict [("t", .date 1)]

/-- The same map with a different timestamp. -/
def valTs2 : PValue := .dict [("t", .date 2)]

/-- A decoder producing the two timestamp-only-different maps. -/
def decTs : List Nat → Except String PValue
  | [1] => .ok valTs1
  | [2] => .ok valTs2
  | _ => .error "invalid plist"

/-- C1: for every pair of file trees, `diffFS` returns `equal = true` iff
the returned `FileDiffSet` is empty; a filename appears as a key iff it is
one of the considered `.plist` filenames and comparing its two decoded
values yields at least one difference; a file whose comparison reports
zero differences is never included in the result. -/
theorem claim1_diffFS_equal_iff (d : Differ) (dec : List Nat → Except String PValue)
    (a b : FSys) (eq : Bool) (delta : List (String × String))
    (h : diffFS d dec a b = .ok (eq, delta)) :
    (eq = true ↔ delta = []) ∧
    (∀ f, f ∈ deltaKeys delta ↔
      (f ∈ fsNames a b ∧ ∃ aD bD, readFile d a f = .ok aD ∧ readFile d b f = .ok bD ∧
        cmpRoot d.IgnoreTimestamps (decOpt (dec aD)) (decOpt (dec bD)) ≠ [])) ∧
    (∀ f aD bD, readFile d a f = .ok aD → readFile d b f = .ok bD →
      cmpRoot d.IgnoreTimestamps (decOpt (dec aD)) (decOpt (dec bD)) = [] →
      f ∉ deltaKeys delta) := by
  unfold diffFS at h
  cases hlist : diffFSList d dec a b (fsNames a b) with
  | error e => rw [hlist] at h; cases h
  | ok delta2 =>
    rw [hlist] at h
    injection h with h2
    injection h2 with he hd
    subst he
    subst hd
    have hiff : ∀ f, f ∈ deltaKeys delta2 ↔
        (f ∈ fsNames a b ∧ ∃ aD bD, readFile d a f = .ok aD ∧ readFile d b f = .ok bD ∧
          cmpRoot d.IgnoreTimestamps (decOpt (dec aD)) (decOpt (dec bD)) ≠ []) := by
      intro f
      rw [diffFSList_mem_keys d dec a b (fsNames a b) delta2 hlist f]
      constructor
      · rintro ⟨hn, hs⟩
        exact ⟨hn, (diffFSFilename_ok_some_iff d dec a b f).mp hs⟩
      · rintro ⟨hn, hs⟩
        exact ⟨hn, (diffFSFilename_ok_some_iff d dec a b f).mpr hs⟩
    refine ⟨List.isEmpty_iff, hiff, ?_⟩
    intro f aD bD ha hb hnil hmem
    obtain ⟨_, aD2, bD2, ha2, hb2, hne⟩ := (hiff f).mp hmem
    rw [ha] at ha2
    rw [hb] at hb2
    injection ha2 with ha3
    injection hb2 with hb3
    subst ha3
    subst hb3
    exact hne hnil

/-- C1 witness: the key/difference equivalence instantiated on the
concrete fixture trees. -/
theorem claim1_witness :
    "x.plist" ∈ deltaKeys deltaTest ↔
      ("x.plist" ∈ fsNames fsA fsB ∧ ∃ aD bD, readFile dDefault fsA "x.plist" = .ok aD ∧
        readFile dDefault fsB "x.plist" = .ok bD ∧
        cmpRoot dDefault.IgnoreTimestamps (decOpt (decTest aD)) (decOpt (decTest bD)) ≠ []) :=
  (claim1_diffFS_equal_iff dDefault decTest fsA fsB false deltaTest (by rfl)).2.1 "x.plist"

/-- C2 counterexample: a single trailing Indirection renders as `*`, not
as nothing, and an Indirection immediately followed by a MapKey step is
not coalesced away — it keeps its parenthesized marker. -/
theorem claim2_renderer_counterexample :
    simplePathString [PathStep.indirect] = "*" ∧
    simplePathString [PathStep.indirect] ≠ "" ∧
    simplePathString [PathStep.indirect, PathStep.mapIndex "k"] = "(*)[\"k\"]" ∧
    simplePathString [PathStep.indirect, PathStep.mapIndex "k"]
      ≠ simplePathString [PathStep.mapIndex "k"] :=
  ⟨rfl, by decide, rfl, by decide⟩

/-- C2 (amended): consecutive Indirection steps coalesce into one marker
of N asterisks; trailing Indirections render their asterisks with no
parentheses (but not as nothing); an Indirection immediately followed by
a struct-field step is coalesced away (automatic indirection on struct
fields), while one followed by a MapKey keeps its marker; and a
TypeNarrowing step contributes no rendered text (removing it changes
nothing whenever it does not directly follow an Indirection). -/
theorem claim2_renderer_amended :
    (∀ (n : Nat) (k : String),
      simplePathString (List.replicate (n + 1) PathStep.indirect ++ [PathStep.mapIndex k])
        = "(" ++ stars (n + 1) ++ ")" ++ stepString (PathStep.mapIndex k)) ∧
    (∀ n : Nat, simplePathString (List.replicate (n + 1) PathStep.indirect) = stars (n + 1)) ∧
    (∀ f : String, simplePathString [PathStep.indirect, PathStep.structField f] = "." ++ f) ∧
    (∀ (tn : String) (pre post : List PathStep), pre.getLast? ≠ some PathStep.indirect →
      simplePathString (pre ++ PathStep.typeAssertion tn :: post)
        = simplePathString (pre ++ post)) :=
  ⟨sps_coalesce_mapIndex, sps_trailing, sps_ind_structField,
   fun tn pre post h => sps_ta_invariant tn pre post h⟩

/-- C2 witness: the amended renderer laws at concrete paths. -/
theorem claim2_renderer_witness :
    simplePathString ([PathStep.mapIndex "a"] ++ PathStep.typeAssertion "uint64" :: [])
      = simplePathString ([PathStep.mapIndex "a"] ++ []) ∧
    simplePathString (List.replicate 2 PathStep.indirect ++ [PathStep.mapIndex "k"])
      = "(" ++ stars 2 ++ ")" ++ stepString (PathStep.mapIndex "k") :=
  ⟨claim2_renderer_amended.2.2.2 "uint64" [PathStep.mapIndex "a"] [] (by decide),
   claim2_renderer_amended.1 1 "k"⟩

/-- C3 counterexample: two root scalars of different kinds produce exactly
one difference, but its rendered path is `root`, not the empty string. -/
theorem claim3_counterexample :
    cmpRoot false (some (.uint 1)) (some (.str "a"))
      = [FileDiff.mk "root" (some (.pv (.uint 1))) (some (.pv (.str "a")))] ∧
    ("root" : String) ≠ "" :=
  ⟨rfl, by decide⟩

/-- C3 (amended): for any two root values that are scalars of different
kinds, the comparison produces exactly one difference whose rendered path
is `"root"` (the go-cmp root step of type `interface ` renders as `root`)
and whose old/new fields hold the two values. -/
theorem claim3_root_scalar_mismatch (ig : Bool) (a b : PValue)
    (_ : isScalar a = true) (_ : isScalar b = true) (hne : tyEq a b = false) :
    cmpRoot ig (some a) (some b)
      = [FileDiff.mk "root" (some (.pv a)) (some (.pv b))] := by
  simp only [cmpRoot, hne, Bool.false_eq_true, if_false]
  rfl

/-- C3 witness: a timestamp against an unsigned integer at the root. -/
theorem claim3_witness :
    cmpRoot false (some (PValue.date 5)) (some (PValue.uint 3))
      = [FileDiff.mk "root" (some (.pv (.date 5))) (some (.pv (.uint 3)))] :=
  claim3_root_scalar_mismatch false (PValue.date 5) (PValue.uint 3) rfl rfl rfl

/-- C4: on two maps otherwise comparing equal, a key present only in the
new side produces exactly one difference at that key's rendered path with
the old field unset and the new field the added value; removing the key
produces the mirror difference (old set, new unset). -/
theorem claim4_map_key_added (ig : Bool) (ea eb : List (String × PValue))
    (k : String) (v : PValue)
    (hea : ea.lookup k = none) (heb : eb.lookup k = some v)
    (hrest : ∀ x, x ≠ k → dictEntryDiffs ig ea eb x = [])
    (hrestm : ∀ x, x ≠ k → dictEntryDiffs ig eb ea x = []) :
    cmpRoot ig (some (.dict ea)) (some (.dict eb))
      = [FileDiff.mk ("root[" ++ goQuote k ++ "]") none (some (.pv v))] ∧
    cmpRoot ig (some (.dict eb)) (some (.dict ea))
      = [FileDiff.mk ("root[" ++ goQuote k ++ "]") (some (.pv v)) none] := by
  constructor
  · rw [cmpRoot_dict]
    rw [flatten_map_single (nodup_sortedUnion _)
      (mem_sortedUnion.mpr (List.mem_append.mpr (Or.inr (mem_keysOf_of_lookup heb))))
      (fun x _ hx => hrest x hx)]
    unfold dictEntryDiffs
    rw [hea, heb]
    simp only [cmpEntry]
    unfold mkDiff
    simp only [List.cons_append, List.nil_append]
    rw [sps_root_mapIndex _ k (mapTypeName_unprintable ea)]
  · rw [cmpRoot_dict]
    rw [flatten_map_single (nodup_sortedUnion _)
      (mem_sortedUnion.mpr (List.mem_append.mpr (Or.inl (mem_keysOf_of_lookup heb))))
      (fun x _ hx => hrestm x hx)]
    unfold dictEntryDiffs
    rw [hea, heb]
    simp only [cmpEntry]
    unfold mkDiff
    simp only [List.cons_append, List.nil_append]
    rw [sps_root_mapIndex _ k (mapTypeName_unprintable eb)]

/-- C4 witness: adding the key `b` to a one-key map. -/
theorem claim4_witness :
    cmpRoot true (some (.dict [("a", .uint 1)]))
      (some (.dict [("a", .uint 1), ("b", .bool true)]))
      = [FileDiff.mk ("root[" ++ goQuote "b" ++ "]") none (some (.pv (.bool true)))] ∧
    cmpRoot true (some (.dict [("a", .uint 1), ("b", .bool true)]))
      (some (.dict [("a", .uint 1)]))
      = [FileDiff.mk ("root[" ++ goQuote "b" ++ "]") (some (.pv (.bool true))) none] := by
  have hrest : ∀ x, x ≠ "b" →
      dictEntryDiffs true [("a", .uint 1)] [("a", .uint 1), ("b", .bool true)] x = [] := by
    intro x hx
    by_cases hxa : x = "a"
    · subst hxa
      rfl
    · unfold dictEntryDiffs
      rw [show List.lookup x [("a", PValue.uint 1)] = none from by
          simp [List.lookup, beq_false_of_ne hxa],
        show List.lookup x [("a", PValue.uint 1), ("b", PValue.bool true)] = none from by
          simp [List.lookup, beq_false_of_ne hxa, beq_false_of_ne hx]]
      rfl
  have hrestm : ∀ x, x ≠ "b" →
      dictEntryDiffs true [("a", .uint 1), ("b", .bool true)] [("a", .uint 1)] x = [] := by
    intro x hx
    by_cases hxa : x = "a"
    · subst hxa
      rfl
    · unfold dictEntryDiffs
      rw [show List.lookup x [("a", PValue.uint 1)] = none from by
          simp [List.lookup, beq_false_of_ne hxa],
        show List.lookup x [("a", PValue.uint 1), ("b", PValue.bool true)] = none from by
          simp [List.lookup, beq_false_of_ne hxa, beq_false_of_ne hx]]
      rfl
  exact claim4_map_key_added true [("a", .uint 1)] [("a", .uint 1), ("b", .bool true)]
    "b" (.bool true) rfl rfl hrest hrestm

/-- C5: a file missing on one side reads as empty bytes with no error; a
permission-denied read yields empty bytes when `IgnorePermissionError` is
set; with it unset, the permission error is propagated and `diffFS`
aborts the whole comparison with an error (no diff set is produced). -/
theorem claim5_readFile_behavior (d : Differ) (a b : FSys) (f : String)
    (dec : List Nat → Except String PValue) :
    (a.files.lookup f = none → readFile d a f = .ok []) ∧
    (a.files.lookup f = some .permDenied → d.IgnorePermissionError = true →
      readFile d a f = .ok []) ∧
    (a.files.lookup f = some .permDenied → d.IgnorePermissionError = false →
      readFile d a f = .error .permission ∧
      (f ∈ fsNames a b → ∃ e, diffFS d dec a b = .error e)) := by
  refine ⟨?_, ?_, ?_⟩
  · intro h
    unfold readFile
    rw [h]
  · intro h hig
    unfold readFile
    rw [h]
    simp [hig]
  · intro h hig
    have hrf : readFile d a f = .error .permission := by
      unfold readFile
      rw [h]
      simp [hig]
    refine ⟨hrf, ?_⟩
    intro hmem
    obtain ⟨e, he⟩ := diffFSList_error d dec a b (fsNames a b) f hmem
      (diffFSFilename_error_of_readFile_error d dec a b f ⟨_, hrf⟩)
    unfold diffFS
    rw [he]
    exact ⟨e, rfl⟩

/-- C5 witness: a permission-denied `.plist` with the exclusion off makes
the whole diff abort. -/
theorem claim5_witness :
    readFile dStrict fsPerm "p.plist" = .error .permission ∧
    ∃ e, diffFS dStrict decTest fsPerm fsEmpty = .error e := by
  obtain ⟨hrf, habort⟩ :=
    (claim5_readFile_behavior dStrict fsPerm fsEmpty "p.plist" decTest).2.2 rfl rfl
  exact ⟨hrf, habort (by decide)⟩

/-- C6: a decode failure is absorbed: `diffPlists` always returns without
an error, a failed side is compared as Absent (nil), and `diffFSFilename`
returns without an error whenever both reads succeed. -/
theorem claim6_decode_failure_recovered (dec : List Nat → Except String PValue)
    (aD bD : List Nat) (ig : Bool) :
    (∃ r, diffPlists dec aD bD ig = .ok r) ∧
    (∀ e, dec aD = .error e →
      diffPlists dec aD bD ig = .ok (cmpResult ig none (decOpt (dec bD)))) ∧
    (∀ e, dec bD = .error e →
      diffPlists dec aD bD ig = .ok (cmpResult ig (decOpt (dec aD)) none)) ∧
    (∀ (d : Differ) (a b : FSys) (f : String) (aD2 bD2 : List Nat),
      readFile d a f = .ok aD2 → readFile d b f = .ok bD2 →
      ∃ r, diffFSFilename d dec a b f = .ok r) := by
  refine ⟨⟨_, diffPlists_eq_ok dec aD bD ig⟩, ?_, ?_, ?_⟩
  · intro e he
    rw [diffPlists_eq_ok]
    rw [show decOpt (dec aD) = none from by rw [he]; rfl]
  · intro e he
    rw [diffPlists_eq_ok]
    rw [show decOpt (dec bD) = none from by rw [he]; rfl]
  · intro d a b f aD2 bD2 ha hb
    rw [diffFSFilename_eq d dec a b f aD2 bD2 ha hb]
    exact ⟨_, rfl⟩

/-- C6 witness: an undecodable old side is compared as Absent. -/
theorem claim6_witness :
    diffPlists decTest [9] [1] true = .ok (cmpResult true none (decOpt (decTest [1]))) :=
  (claim6_decode_failure_recovered decTest [9] [1] true).2.1 "invalid plist" rfl

/-- C7 counterexample: a NaN real compared against itself is reported as
a difference (Go float equality), so self-comparison is not always empty
and `diffPlists` on identical bytes can report inequality. -/
theorem claim7_counterexample :
    cmpRoot false (some (PValue.real FloatV.nan)) (some (PValue.real FloatV.nan)) ≠ [] ∧
    ∃ s, diffPlists decNan [] [] false = .ok (false, s) := by
  constructor
  · rw [show cmpRoot false (some (PValue.real FloatV.nan)) (some (PValue.real FloatV.nan))
        = [FileDiff.mk "\x7bfloat64\x7d" (some (.pv (.real .nan)))
            (some (.pv (.real .nan)))] from rfl]
    exact List.cons_ne_nil _ _
  · exact ⟨_, rfl⟩

/-- C7 (amended): for every NaN-free value, comparing it to itself (with
or without the timestamp exclusion) yields no differences; two absent
roots also compare equal; and `diffPlists` on the same byte sequence
reports equality whenever the decode result is NaN-free or a failure. -/
theorem claim7_self_compare_nanfree {v : PValue} (hv : NanFree v) (ig : Bool) :
    cmpRoot ig (some v) (some v) = [] ∧
    cmpRoot ig none none = [] ∧
    (∀ (dec : List Nat → Except String PValue) (dt : List Nat),
      (∀ w, decOpt (dec dt) = some w → NanFree w) →
      diffPlists dec dt dt ig = .ok (true, "")) := by
  refine ⟨cmpRoot_self hv ig, rfl, ?_⟩
  intro dec dt hw
  rw [diffPlists_eq_ok]
  cases hdec : decOpt (dec dt) with
  | none => rfl
  | some w =>
    have hnf := hw w hdec
    unfold cmpResult
    rw [cmpRoot_self hnf ig]
    rfl

/-- C7 witness: a nested NaN-free value compares equal to itself. -/
theorem claim7_witness :
    cmpRoot true (some (PValue.dict [("a", PValue.arr [PValue.uint 1, PValue.str "x"])]))
      (some (PValue.dict [("a", PValue.arr [PValue.uint 1, PValue.str "x"])])) = [] := by
  have hnf : NanFree (PValue.dict [("a", PValue.arr [PValue.uint 1, PValue.str "x"])]) := by
    refine NanFree.dict _ ?_
    intro p hp
    rcases List.mem_singleton.mp hp with rfl
    refine NanFree.arr _ ?_
    intro w hw
    rcases List.mem_cons.mp hw with rfl | hw2
    · exact NanFree.uint 1
    · rcases List.mem_singleton.mp hw2 with rfl
      exact NanFree.str "x"
  exact (claim7_self_compare_nanfree hnf true).1

/-- C8: with the timestamp exclusion enabled, two values differing only
in timestamp-kind scalars (at any depth) compare equal with zero
differences, and `diffPlists` reports equality with empty text. -/
theorem claim8_ignore_timestamps {v w : PValue} (h : TsEq v w)
    (dec : List Nat → Except String PValue) (aD bD : List Nat) :
    cmpRoot true (some v) (some w) = [] ∧
    (decOpt (dec aD) = some v → decOpt (dec bD) = some w →
      diffPlists dec aD bD true = .ok (true, "")) := by
  refine ⟨cmpRoot_tsEq h, ?_⟩
  intro ha hb
  rw [diffPlists_eq_ok, ha, hb]
  unfold cmpResult
  rw [cmpRoot_tsEq h]
  rfl

/-- C8 witness: two maps whose only difference is a timestamp compare
equal under the exclusion, end to end through `diffPlists`. -/
theorem claim8_witness :
    cmpRoot true (some valTs1) (some valTs2) = [] ∧
    diffPlists decTs [1] [2] true = .ok (true, "") := by
  have hts : TsEq valTs1 valTs2 := by
    refine TsEq.dict _ _ ?_ ?_
    · intro k
      by_cases hk : k = "t"
      · subst hk
        rfl
      · simp [valTs1, valTs2, List.lookup, beq_false_of_ne hk]
    · intro k x y hx hy
      by_cases hk : k = "t"
      · subst hk
        simp [valTs1, valTs2, List.lookup] at hx hy
        rw [← hx, ← hy]
        exact TsEq.date 1 2
      · simp [valTs1, List.lookup, beq_false_of_ne hk] at hx
  have h := claim8_ignore_timestamps hts decTs [1] [2]
  exact ⟨h.1, h.2 rfl rfl⟩

/-- C9: when both sides of a filename fail to decode (including both
sides missing or empty, or an unparsable one-sided file), the file is
reported equal (`diffFSFilename` returns `none`) and never appears in the
diff set of a successful `diffFS`. -/
theorem claim9_both_decode_fail (d : Differ) (dec : List Nat → Except String PValue)
    (a b : FSys) (f : String) (aD bD : List Nat)
    (ha : readFile d a f = .ok aD) (hb : readFile d b f = .ok bD)
    (e1 e2 : String) (hda : dec aD = .error e1) (hdb : dec bD = .error e2) :
    diffFSFilename d dec a b f = .ok none ∧
    (∀ eq delta, diffFS d dec a b = .ok (eq, delta) → f ∉ deltaKeys delta) := by
  have hdiff : diffFSFilename d dec a b f = .ok none := by
    rw [diffFSFilename_eq d dec a b f aD bD ha hb]
    rw [show decOpt (dec aD) = none from by rw [hda]; rfl,
      show decOpt (dec bD) = none from by rw [hdb]; rfl]
    rfl
  refine ⟨hdiff, ?_⟩
  intro eq delta h hmem
  unfold diffFS at h
  cases hlist : diffFSList d dec a b (fsNames a b) with
  | error e => rw [hlist] at h; cases h
  | ok delta2 =>
    rw [hlist] at h
    injection h with h2
    injection h2 with he hd
    subst he
    subst hd
    obtain ⟨_, s, hs⟩ :=
      (diffFSList_mem_keys d dec a b (fsNames a b) delta2 hlist f).mp hmem
    rw [hdiff] at hs
    cases hs

/-- C9 witness: a filename missing from both trees decodes to nothing on
either side and is reported equal. -/
theorem claim9_witness :
    diffFSFilename dDefault decTest fsEmpty fsEmpty "gone.plist" = .ok none :=
  (claim9_both_decode_fail dDefault decTest fsEmpty fsEmpty "gone.plist" [] []
    rfl rfl "invalid plist" "invalid plist" rfl rfl).1

/-- C10: with no flags the differ runs with `IgnoreTimestamps` and
`IgnorePermissionError` both true; the `--timestamps` and
`--permissions-errors` flags each negate the corresponding field. -/
theorem claim10_default_flags :
    (runDiffer {}).IgnoreTimestamps = true ∧
    (runDiffer {}).IgnorePermissionError = true ∧
    (∀ cli : CliRoot, (runDiffer cli).IgnoreTimestamps = !cli.timestamps ∧
      (runDiffer cli).IgnorePermissionError = !cli.permissionsErrors) ∧
    (runDiffer { timestamps := true }).IgnoreTimestamps = false ∧
    (runDiffer { permissionsErrors := true }).IgnorePermissionError = false :=
  ⟨rfl, rfl, fun _ => ⟨rfl, rfl⟩, rfl, rfl⟩

end PlistDiff
